import Mathlib

/-!
Shallow embedding of the Chan-theory K-line pipeline:
`kline_data.py` (bar model), `kline_merger.py` (inclusion-based merge engine)
and `kline_visualizer.py` (fractal detection and pen construction).

Prices (`high`, `low`) are modelled as rationals: the source uses Python
floats but only ever compares, `max`es and `min`es them, so any linearly
ordered dense field models the intended behaviour; timestamps are modelled
as integers (the source uses `datetime` values, which it only copies and
compares).  Python object identity (used by `calculate_pens` for
`fractals.index(...)` and the `used_fractals` set) is modelled by list
position, which coincides with identity for the freshly constructed,
pairwise distinct objects the pipeline produces.  The two `while` loops of
`calculate_pens` advance a strictly increasing position cursor, so they are
given the explicit fuel `fractals.length + 1`, which is never exhausted
(`penLoop_fuel_irrelevant` and `firstStart_fuel_irrelevant` below prove the
result does not depend on the fuel once it exceeds the remaining positions).
-/

/-- Structure `KLine` from `kline_data.py`: timestamp, high, low. -/
structure KLine where
  timestamp : ℤ
  high : ℚ
  low : ℚ
  deriving DecidableEq

/-- Method `KLine.__post_init__`: constructing a bar with `high < low` raises
`ValueError`; modelled as an `Except`-returning smart constructor. -/
def KLine.create (timestamp : ℤ) (high low : ℚ) : Except String KLine :=
  if high < low then .error "InvalidBar: high is less than low"
  else .ok ⟨timestamp, high, low⟩

/-- Structure `MergedKLine` from `kline_data.py`. -/
structure MergedKLine where
  start_time : ℤ
  end_time : ℤ
  high : ℚ
  low : ℚ
  original_count : ℕ
  deriving DecidableEq

/-- The three outcomes of `KLineMerger._has_inclusion_relationship`
(the Python strings `'k1_contains_k2'`, `'k2_contains_k1'`, `'none'`). -/
inductive InclusionType where
  | k1ContainsK2
  | k2ContainsK1
  | noInclusion
  deriving DecidableEq

/-- Method `KLineMerger._has_inclusion_relationship`: `k1` contains `k2` iff
`k1.high ≥ k2.high ∧ k1.low ≤ k2.low` (checked first), `k2` contains `k1`
iff the reverse. -/
def hasInclusionRelationship (k1 k2 : MergedKLine) : Bool × InclusionType :=
  if k1.high ≥ k2.high ∧ k1.low ≤ k2.low then (true, .k1ContainsK2)
  else if k2.high ≥ k1.high ∧ k2.low ≤ k1.low then (true, .k2ContainsK1)
  else (false, .noInclusion)

/-- Trend direction (the Python strings `'up'` / `'down'`). -/
inductive Trend where
  | up
  | down
  deriving DecidableEq

/-- Method `KLineMerger._merge_inclusion_relationship`: up-trend merges take the
max of highs and the max of lows, down-trend merges take the mins. -/
def mergeInclusionRelationship (k1 k2 : MergedKLine) (trend : Trend) : MergedKLine :=
  match trend with
  | .up =>
    { start_time := k1.start_time, end_time := k2.end_time,
      high := max k1.high k2.high, low := max k1.low k2.low,
      original_count := k1.original_count + k2.original_count }
  | .down =>
    { start_time := k1.start_time, end_time := k2.end_time,
      high := min k1.high k2.high, low := min k1.low k2.low,
      original_count := k1.original_count + k2.original_count }

/-- Method `KLineMerger._determine_trend_direction`: compare the current bar against
the last finalized bar; `up` when the list is empty.  (`next_k` is a
parameter of the Python method but is never read; it is kept for parity.) -/
def determineTrendDirection (current_k _next_k : MergedKLine)
    (merged_klines : List MergedKLine) : Trend :=
  match merged_klines.getLast? with
  | none => .up
  | some prev_k =>
    if current_k.high ≥ prev_k.high then .up
    else if current_k.low ≤ prev_k.low then .down
    else if current_k.high > prev_k.high then .up
    else .down

/-- Method `KLineMerger._kline_to_merged`. -/
def klineToMerged (kline : KLine) : MergedKLine :=
  { start_time := kline.timestamp, end_time := kline.timestamp,
    high := kline.high, low := kline.low, original_count := 1 }

/-- The loop body of `KLineMerger.merge_klines` (lines 163-194): the Python
`for` loop over the remaining bars, carrying the accumulated result list and
the current merged bar.  Only `k1_contains_k2` triggers a merge; every other
case finalizes `current` and restarts from the candidate. -/
def mergeLoop (merged_result : List MergedKLine) (current_merged : MergedKLine) :
    List KLine → List MergedKLine
  | [] => merged_result ++ [current_merged]
  | k :: rest =>
    let next_kline := klineToMerged k
    let inclusion := hasInclusionRelationship current_merged next_kline
    if inclusion.1 then
      if inclusion.2 = .k1ContainsK2 then
        mergeLoop merged_result
          (mergeInclusionRelationship current_merged next_kline
            (determineTrendDirection current_merged next_kline merged_result))
          rest
      else
        mergeLoop (merged_result ++ [current_merged]) next_kline rest
    else
      mergeLoop (merged_result ++ [current_merged]) next_kline rest

/-- Method `KLineMerger.merge_klines`: empty input yields empty output; otherwise
the first bar seeds `current` and the loop consumes the rest.  (The Python
single-bar special case is subsumed: the loop with an empty remainder
returns `[current]`.) -/
def mergeKlines : List KLine → List MergedKLine
  | [] => []
  | k :: rest => mergeLoop [] (klineToMerged k) rest

/-- Fractal kind (the Python strings `'top'` / `'bottom'`). -/
inductive FractalType where
  | top
  | bottom
  deriving DecidableEq

/-- Placeholder bar used for out-of-range `getD` accesses; every access in
the embedded functions is range-guarded, so it is never read. -/
def defaultMergedKLine : MergedKLine :=
  { start_time := 0, end_time := 0, high := 0, low := 0, original_count := 1 }

/-- Method `_detect_fractal_type` (identical in `KLineMerger` and
`KLineVisualizer`): a top needs strictly larger high and low than both
neighbours, a bottom strictly smaller; boundary indices yield nothing. -/
def detectFractalType (klines : List MergedKLine) (index : ℕ) : Option FractalType :=
  if index = 0 ∨ klines.length - 1 ≤ index then none
  else
    let prev_k := klines.getD (index - 1) defaultMergedKLine
    let curr_k := klines.getD index defaultMergedKLine
    let next_k := klines.getD (index + 1) defaultMergedKLine
    if curr_k.high > prev_k.high ∧ curr_k.high > next_k.high ∧
        curr_k.low > prev_k.low ∧ curr_k.low > next_k.low then some .top
    else if curr_k.high < prev_k.high ∧ curr_k.high < next_k.high ∧
        curr_k.low < prev_k.low ∧ curr_k.low < next_k.low then some .bottom
    else none

/-- Class `Fractal` from `kline_visualizer.py`; `price` and `time` are copied out
of the bar at construction (`mkFractal`). -/
structure Fractal where
  index : ℕ
  type : FractalType
  price : ℚ
  time : ℤ
  deriving DecidableEq

/-- Method `Fractal.__init__`: `price` is the bar's high for a top and its low for
a bottom; `time` is the bar's start time. -/
def mkFractal (index : ℕ) (ftype : FractalType) (kline : MergedKLine) : Fractal :=
  { index := index, type := ftype,
    price := if ftype = .top then kline.high else kline.low,
    time := kline.start_time }

/-- Method `KLineVisualizer.detect_fractals`: scan indices `1 .. length-2`. -/
def detectFractals (merged_klines : List MergedKLine) : List Fractal :=
  (List.range' 1 (merged_klines.length - 2)).filterMap fun i =>
    (detectFractalType merged_klines i).map fun ftype =>
      mkFractal i ftype (merged_klines.getD i defaultMergedKLine)

/-- Class `Pen` from `kline_visualizer.py`. -/
structure Pen where
  start_fractal : Fractal
  end_fractal : Fractal
  direction : Trend
  deriving DecidableEq

/-- Method `Pen.__init__`: direction is `'up'` iff the end price strictly exceeds
the start price. -/
def mkPen (start_fractal end_fractal : Fractal) : Pen :=
  { start_fractal := start_fractal, end_fractal := end_fractal,
    direction := if end_fractal.price > start_fractal.price then .up else .down }

/-- The opposite fractal kind (`'top' if type == 'bottom' else 'bottom'`). -/
def oppositeType : FractalType → FractalType
  | .top => .bottom
  | .bottom => .top

/-- Membership in `set(range(max(0, f.index - 1), f.index + 2))` from
`_has_independent_klines_between`; truncated subtraction on `ℕ` realizes
the clamp at 0. -/
def occupiedBy (f : Fractal) (k : ℕ) : Bool :=
  decide (f.index - 1 ≤ k ∧ k < f.index + 2)

/-- Method `KLineVisualizer._has_independent_klines_between`: fractals closer than
3 have no independent bar; otherwise some index strictly between them must
avoid both occupied windows. -/
def hasIndependentKlinesBetween (fractal1 fractal2 : Fractal) : Bool :=
  let start_index := min fractal1.index fractal2.index
  let end_index := max fractal1.index fractal2.index
  if end_index - start_index ≤ 2 then false
  else
    let independent_klines :=
      (List.range' (start_index + 1) (end_index - start_index - 1)).filter fun k =>
        !occupiedBy fractal1 k && !occupiedBy fractal2 k
    decide (1 ≤ independent_klines.length)

/-- A candidate is a valid pen end when it has the target kind and is
independent of the start fractal. -/
def isValidEnd (start_fractal : Fractal) (target_type : FractalType) (c : Fractal) : Bool :=
  decide (c.type = target_type) && hasIndependentKlinesBetween start_fractal c

/-- The scan loop of `KLineVisualizer._find_valid_pen_end`, carrying the
position `j` of the head of the remaining suffix and the recorded
`last_valid` candidate (with its position). -/
def findEndScan (start_fractal : Fractal) (target_type : FractalType) :
    List Fractal → ℕ → Option (ℕ × Fractal) → Option (ℕ × Fractal)
  | [], _, last_valid => last_valid
  | c :: rest, j, last_valid =>
    if c.type = target_type then
      if hasIndependentKlinesBetween start_fractal c then
        findEndScan start_fractal target_type rest (j + 1) (some (j, c))
      else
        findEndScan start_fractal target_type rest (j + 1) last_valid
    else if c.type = start_fractal.type then
      if last_valid.isSome then last_valid
      else findEndScan start_fractal target_type rest (j + 1) last_valid
    else
      findEndScan start_fractal target_type rest (j + 1) last_valid

/-- Method `KLineVisualizer._find_valid_pen_end`: scan positions
`start_index + 1 ..` and return the recorded `last_valid` (paired with its
position, modelling Python object identity). -/
def findValidPenEnd (start_fractal : Fractal) (fractals : List Fractal)
    (start_index : ℕ) (target_type : FractalType) : Option (ℕ × Fractal) :=
  findEndScan start_fractal target_type (fractals.drop (start_index + 1)) (start_index + 1) none

/-- The restart search in `calculate_pens`: among positions after the
current one, the first fractal that is unused and of a different kind. -/
def restartScan (cur_type : FractalType) (used : List ℕ) :
    List Fractal → ℕ → Option ℕ
  | [], _ => none
  | f :: rest, j =>
    if j ∉ used ∧ f.type ≠ cur_type then some j
    else restartScan cur_type used rest (j + 1)

/-- The main `while` loop of `KLineVisualizer.calculate_pens` (lines
137-173): from the current fractal (identified by its position), either a
valid pen end is found — emit the pen, mark both ends used, continue from
the end — or the chain restarts from the first unused fractal of opposite
kind after the current position, or the loop terminates.  The position
cursor strictly increases on every iteration, so the explicit fuel is never
exhausted when it exceeds the number of remaining positions. -/
def penLoop (fractals : List Fractal) :
    ℕ → ℕ → List ℕ → List Pen → List Pen
  | 0, _, _, pens => pens
  | fuel + 1, current_index, used_fractals, pens =>
    match fractals[current_index]? with
    | none => pens
    | some current_fractal =>
      match findValidPenEnd current_fractal fractals current_index
          (oppositeType current_fractal.type) with
      | some (j, end_fractal) =>
        penLoop fractals fuel j (current_index :: j :: used_fractals)
          (pens ++ [mkPen current_fractal end_fractal])
      | none =>
        match restartScan current_fractal.type used_fractals
            (fractals.drop (current_index + 1)) (current_index + 1) with
        | some p => penLoop fractals fuel p used_fractals pens
        | none => pens

/-- The initial `while start_index < len(fractals)` search of
`calculate_pens` (lines 115-127): the first position whose fractal admits a
valid pen end. -/
def firstStart (fractals : List Fractal) : ℕ → ℕ → Option ℕ
  | 0, _ => none
  | fuel + 1, start_index =>
    match fractals[start_index]? with
    | none => none
    | some candidate_start =>
      if (findValidPenEnd candidate_start fractals start_index
          (oppositeType candidate_start.type)).isSome then some start_index
      else firstStart fractals fuel (start_index + 1)

/-- Method `KLineVisualizer.calculate_pens`: fewer than two fractals yield no
pens; otherwise find the first viable start and run the chain loop. -/
def calculatePens (fractals : List Fractal) : List Pen :=
  if fractals.length < 2 then []
  else
    match firstStart fractals (fractals.length + 1) 0 with
    | none => []
    | some s => penLoop fractals (fractals.length + 1) s [] []

/-! ## Auxiliary lemmas -/

/-- There are exactly two fractal kinds. -/
theorem fractalType_eq_or (x y z : FractalType) (hxy : x ≠ y) : z = x ∨ z = y := by
  cases x <;> cases y <;> cases z <;> simp_all

/-- The opposite kind is never the kind itself. -/
theorem oppositeType_ne (x : FractalType) : oppositeType x ≠ x := by
  cases x <;> simp [oppositeType]

/-- Characterization of `_has_independent_klines_between`: true exactly when
the fractals are more than 2 apart and some strictly-between index escapes
both occupied windows. -/
theorem hasIndependentKlinesBetween_iff (f1 f2 : Fractal) :
    hasIndependentKlinesBetween f1 f2 = true ↔
      2 < max f1.index f2.index - min f1.index f2.index ∧
        ∃ k : ℕ, min f1.index f2.index < k ∧ k < max f1.index f2.index ∧
          ¬(f1.index - 1 ≤ k ∧ k ≤ f1.index + 1) ∧
          ¬(f2.index - 1 ≤ k ∧ k ≤ f2.index + 1) := by
  unfold hasIndependentKlinesBetween
  by_cases hd : max f1.index f2.index - min f1.index f2.index ≤ 2
  · rw [if_pos hd]
    simp only [Bool.false_eq_true, false_iff, not_and]
    intro h
    omega
  · rw [if_neg hd]
    simp only [decide_eq_true_eq]
    constructor
    · intro hlen
      obtain ⟨k, hk⟩ := List.length_pos_iff_exists_mem.mp (lt_of_lt_of_le one_pos hlen)
      obtain ⟨hmem, hpred⟩ := List.mem_filter.mp hk
      rw [List.mem_range'_1] at hmem
      simp only [Bool.and_eq_true, Bool.not_eq_true', occupiedBy,
        decide_eq_false_iff_not] at hpred
      exact ⟨by omega, k, by omega, by omega, by omega, by omega⟩
    · rintro ⟨-, k, hk1, hk2, hk3, hk4⟩
      have hmem : k ∈ (List.range' (min f1.index f2.index + 1)
          (max f1.index f2.index - min f1.index f2.index - 1)).filter fun k =>
            !occupiedBy f1 k && !occupiedBy f2 k := by
        rw [List.mem_filter, List.mem_range'_1]
        refine ⟨⟨by omega, by omega⟩, ?_⟩
        simp only [Bool.and_eq_true, Bool.not_eq_true', occupiedBy,
          decide_eq_false_iff_not]
        omega
      have := List.length_pos_of_mem hmem
      omega

/-! ## C9: raw-bar construction fails exactly when high < low -/

/-- C9: constructing a raw bar fails with the invalid-bar error exactly when
`high < low`, and succeeds (returning the bar) exactly when `high ≥ low`. -/
theorem c9_kline_construction (t : ℤ) (high low : ℚ) :
    (KLine.create t high low = .ok ⟨t, high, low⟩ ↔ low ≤ high)
    ∧ ((∃ msg, KLine.create t high low = .error msg) ↔ high < low) := by
  unfold KLine.create
  by_cases h : high < low
  · rw [if_pos h]
    constructor
    · simp only [iff_false_intro (not_le.mpr h), iff_false]
      intro hcon
      exact absurd hcon (by simp)
    · exact ⟨fun _ => h, fun _ => ⟨_, rfl⟩⟩
  · rw [if_neg h]
    constructor
    · simpa using not_lt.mp h
    · constructor
      · rintro ⟨msg, hcon⟩
        exact absurd hcon (by simp)
      · intro hcon
        exact absurd hcon h

/-- Witness for C9 at a concrete bar. -/
theorem c9_kline_construction_witness : KLine.create 0 5 3 = .ok ⟨0, 5, 3⟩ :=
  (c9_kline_construction 0 5 3).1.mpr (by decide)

/-! ## C2: the trend fallback branch -/

/-- C2 counterexample: a current bar strictly contained (on both sides) in
the previously finalized bar, while containing the candidate bar, makes the
trend rule return `down`, not the claimed default `up`. -/
theorem c2_counterexample :
    hasInclusionRelationship ⟨0, 0, 5, 3, 1⟩ ⟨1, 1, 4, 4, 1⟩ = (true, .k1ContainsK2)
    ∧ ([(⟨0, 0, 10, 1, 1⟩ : MergedKLine)] ≠ [])
    ∧ (5 : ℚ) < 10 ∧ (1 : ℚ) < 3
    ∧ determineTrendDirection ⟨0, 0, 5, 3, 1⟩ ⟨1, 1, 4, 4, 1⟩ [⟨0, 0, 10, 1, 1⟩] ≠ .up := by
  decide

/-- C2 amended: when the finalized output is non-empty and neither
comparison of the trend rule fires (`current.high < previous.high` and
`current.low > previous.low`), the trend direction is `down` — the final
fallback comparison `current.high > previous.high` can never succeed
there. -/
theorem c2_trend_fallback_is_down (current_k next_k prev_k : MergedKLine)
    (merged_klines : List MergedKLine)
    (hlast : merged_klines.getLast? = some prev_k)
    (hh : current_k.high < prev_k.high) (hl : prev_k.low < current_k.low) :
    determineTrendDirection current_k next_k merged_klines = .down := by
  unfold determineTrendDirection
  rw [hlast]
  show (if current_k.high ≥ prev_k.high then Trend.up
    else if current_k.low ≤ prev_k.low then Trend.down
    else if current_k.high > prev_k.high then Trend.up else Trend.down) = Trend.down
  rw [if_neg (not_le.mpr hh), if_neg (not_le.mpr hl), if_neg (not_lt.mpr (le_of_lt hh))]

/-- Witness for the amended C2 at a concrete merge state. -/
theorem c2_trend_fallback_is_down_witness :
    determineTrendDirection ⟨0, 0, 5, 3, 1⟩ ⟨1, 1, 4, 4, 1⟩ [⟨0, 0, 10, 1, 1⟩] = .down :=
  c2_trend_fallback_is_down _ _ _ _ rfl (by decide) (by decide)

/-! ## C6 and C10: the independence predicate -/

/-- C6: the independence predicate is false whenever the fractals are at
most 2 apart; otherwise it is true exactly when some index strictly between
them lies outside both occupied windows `[index-1, index+1]` (clamped below
at 0 by the truncated subtraction). -/
theorem c6_independence_predicate (f1 f2 : Fractal) :
    (max f1.index f2.index - min f1.index f2.index ≤ 2 →
      hasIndependentKlinesBetween f1 f2 = false)
    ∧ (2 < max f1.index f2.index - min f1.index f2.index →
      (hasIndependentKlinesBetween f1 f2 = true ↔
        ∃ k : ℕ, min f1.index f2.index < k ∧ k < max f1.index f2.index ∧
          ¬(f1.index - 1 ≤ k ∧ k ≤ f1.index + 1) ∧
          ¬(f2.index - 1 ≤ k ∧ k ≤ f2.index + 1))) := by
  constructor
  · intro hle
    cases hb : hasIndependentKlinesBetween f1 f2
    · rfl
    · have := (hasIndependentKlinesBetween_iff f1 f2).mp hb
      omega
  · intro hgt
    rw [hasIndependentKlinesBetween_iff]
    constructor
    · rintro ⟨-, hk⟩
      exact hk
    · intro hk
      exact ⟨hgt, hk⟩

/-- Witness for C6 at concrete fractals 4 apart. -/
theorem c6_independence_predicate_witness :
    hasIndependentKlinesBetween ⟨0, .bottom, 1, 0⟩ ⟨4, .top, 5, 1⟩ = true :=
  ((c6_independence_predicate ⟨0, .bottom, 1, 0⟩ ⟨4, .top, 5, 1⟩).2 (by decide)).mpr
    ⟨2, by decide, by decide, by decide, by decide⟩

/-- C10: the independence predicate reduces to the distance test
`|f1.index - f2.index| ≥ 4`. -/
theorem c10_independence_is_distance (f1 f2 : Fractal) :
    hasIndependentKlinesBetween f1 f2 = true ↔ 4 ≤ |(f1.index : ℤ) - (f2.index : ℤ)| := by
  rw [hasIndependentKlinesBetween_iff, Int.abs_eq_natAbs]
  constructor
  · rintro ⟨hd, k, h1, h2, h3, h4⟩
    omega
  · intro h
    refine ⟨by omega, min f1.index f2.index + 2, by omega, by omega, by omega, by omega⟩

/-! ## C7: fractal detection strictness -/

/-- In-range evaluation of `_detect_fractal_type` as a plain conditional. -/
theorem detectFractalType_eq (klines : List MergedKLine) (i : ℕ)
    (h1 : 1 ≤ i) (h2 : i + 1 < klines.length) :
    detectFractalType klines i =
      (if (klines.getD i defaultMergedKLine).high >
            (klines.getD (i - 1) defaultMergedKLine).high ∧
          (klines.getD i defaultMergedKLine).high >
            (klines.getD (i + 1) defaultMergedKLine).high ∧
          (klines.getD i defaultMergedKLine).low >
            (klines.getD (i - 1) defaultMergedKLine).low ∧
          (klines.getD i defaultMergedKLine).low >
            (klines.getD (i + 1) defaultMergedKLine).low then some .top
       else if (klines.getD i defaultMergedKLine).high <
            (klines.getD (i - 1) defaultMergedKLine).high ∧
          (klines.getD i defaultMergedKLine).high <
            (klines.getD (i + 1) defaultMergedKLine).high ∧
          (klines.getD i defaultMergedKLine).low <
            (klines.getD (i - 1) defaultMergedKLine).low ∧
          (klines.getD i defaultMergedKLine).low <
            (klines.getD (i + 1) defaultMergedKLine).low then some .bottom
       else none) := by
  have hguard : ¬(i = 0 ∨ klines.length - 1 ≤ i) := by omega
  unfold detectFractalType
  rw [if_neg hguard]

/-- C7: a fractal is only reported at interior indices, and there a top
(resp. bottom) is reported exactly when the bar's high and low are strictly
greater (resp. smaller) than both neighbours'; any tie yields no fractal. -/
theorem c7_fractal_strictness (klines : List MergedKLine) (i : ℕ) :
    (detectFractalType klines i ≠ none → 1 ≤ i ∧ i + 1 < klines.length)
    ∧ (1 ≤ i → i + 1 < klines.length →
        ∀ prev_k curr_k next_k : MergedKLine,
          klines.getD (i - 1) defaultMergedKLine = prev_k →
          klines.getD i defaultMergedKLine = curr_k →
          klines.getD (i + 1) defaultMergedKLine = next_k →
          (detectFractalType klines i = some .top ↔
            curr_k.high > prev_k.high ∧ curr_k.high > next_k.high ∧
            curr_k.low > prev_k.low ∧ curr_k.low > next_k.low)
          ∧ (detectFractalType klines i = some .bottom ↔
            curr_k.high < prev_k.high ∧ curr_k.high < next_k.high ∧
            curr_k.low < prev_k.low ∧ curr_k.low < next_k.low)
          ∧ (detectFractalType klines i = none ↔
            ¬(curr_k.high > prev_k.high ∧ curr_k.high > next_k.high ∧
              curr_k.low > prev_k.low ∧ curr_k.low > next_k.low) ∧
            ¬(curr_k.high < prev_k.high ∧ curr_k.high < next_k.high ∧
              curr_k.low < prev_k.low ∧ curr_k.low < next_k.low))) := by
  constructor
  · intro hne
    by_contra hcon
    have hguard : i = 0 ∨ klines.length - 1 ≤ i := by omega
    unfold detectFractalType at hne
    rw [if_pos hguard] at hne
    exact hne rfl
  · intro h1 h2 prev_k curr_k next_k hp hc hn
    subst hp hc hn
    rw [detectFractalType_eq klines i h1 h2]
    split_ifs with ht hb
    · refine ⟨iff_of_true rfl ht, iff_of_false (by simp) ?_, iff_of_false (by simp) ?_⟩
      · rintro ⟨hb1, -⟩
        exact absurd ht.1 (lt_asymm hb1)
      · rintro ⟨hnt, -⟩
        exact hnt ht
    · refine ⟨iff_of_false (by simp) ht, iff_of_true rfl hb, iff_of_false (by simp) ?_⟩
      rintro ⟨-, hnb⟩
      exact hnb hb
    · exact ⟨iff_of_false (by simp) ht, iff_of_false (by simp) hb, iff_of_true rfl ⟨ht, hb⟩⟩

/-- Witness for C7 at a concrete 3-bar sequence with a top at index 1. -/
theorem c7_fractal_strictness_witness :
    detectFractalType [⟨0, 0, 1, 0, 1⟩, ⟨1, 1, 5, 2, 1⟩, ⟨2, 2, 3, 1, 1⟩] 1 = some .top :=
  (((c7_fractal_strictness [⟨0, 0, 1, 0, 1⟩, ⟨1, 1, 5, 2, 1⟩, ⟨2, 2, 3, 1, 1⟩] 1).2
    (by decide) (by decide) _ _ _ rfl rfl rfl).1).mpr (by decide)

/-! ## C8: degenerate inputs -/

/-- C8: the empty input produces empty outputs at every stage, and a single
bar produces one compressed bar with count 1, no fractals and no pens. -/
theorem c8_degenerate_inputs :
    mergeKlines [] = [] ∧ detectFractals [] = [] ∧ calculatePens [] = []
    ∧ ∀ kline : KLine,
        mergeKlines [kline] = [klineToMerged kline]
        ∧ (klineToMerged kline).original_count = 1
        ∧ detectFractals (mergeKlines [kline]) = []
        ∧ calculatePens (detectFractals (mergeKlines [kline])) = [] :=
  ⟨rfl, rfl, rfl, fun _ => ⟨rfl, rfl, rfl, rfl⟩⟩

/-! ## Merge-engine lemmas -/

/-- Trichotomy of the inclusion test, with the branch conditions. -/
theorem hasInclusionRelationship_cases (k1 k2 : MergedKLine) :
    (k1.high ≥ k2.high ∧ k1.low ≤ k2.low ∧
      hasInclusionRelationship k1 k2 = (true, .k1ContainsK2))
    ∨ (¬(k1.high ≥ k2.high ∧ k1.low ≤ k2.low) ∧ k2.high ≥ k1.high ∧ k2.low ≤ k1.low ∧
      hasInclusionRelationship k1 k2 = (true, .k2ContainsK1))
    ∨ (¬(k1.high ≥ k2.high ∧ k1.low ≤ k2.low) ∧ ¬(k2.high ≥ k1.high ∧ k2.low ≤ k1.low) ∧
      hasInclusionRelationship k1 k2 = (false, .noInclusion)) := by
  unfold hasInclusionRelationship
  by_cases h1 : k1.high ≥ k2.high ∧ k1.low ≤ k2.low
  · exact Or.inl ⟨h1.1, h1.2, by rw [if_pos h1]⟩
  · by_cases h2 : k2.high ≥ k1.high ∧ k2.low ≤ k1.low
    · exact Or.inr (Or.inl ⟨h1, h2.1, h2.2, by rw [if_neg h1, if_pos h2]⟩)
    · exact Or.inr (Or.inr ⟨h1, h2, by rw [if_neg h1, if_neg h2]⟩)

/-- Unfolding of the merge loop when the current bar contains the candidate. -/
theorem mergeLoop_cons_merge (res : List MergedKLine) (cur : MergedKLine) (k : KLine)
    (rest : List KLine)
    (h : hasInclusionRelationship cur (klineToMerged k) = (true, .k1ContainsK2)) :
    mergeLoop res cur (k :: rest) =
      mergeLoop res
        (mergeInclusionRelationship cur (klineToMerged k)
          (determineTrendDirection cur (klineToMerged k) res)) rest := by
  simp [mergeLoop, h]

/-- Unfolding of the merge loop when the candidate contains the current bar. -/
theorem mergeLoop_cons_keep (res : List MergedKLine) (cur : MergedKLine) (k : KLine)
    (rest : List KLine)
    (h : hasInclusionRelationship cur (klineToMerged k) = (true, .k2ContainsK1)) :
    mergeLoop res cur (k :: rest) = mergeLoop (res ++ [cur]) (klineToMerged k) rest := by
  simp [mergeLoop, h]

/-- Unfolding of the merge loop when there is no inclusion. -/
theorem mergeLoop_cons_none (res : List MergedKLine) (cur : MergedKLine) (k : KLine)
    (rest : List KLine)
    (h : hasInclusionRelationship cur (klineToMerged k) = (false, .noInclusion)) :
    mergeLoop res cur (k :: rest) = mergeLoop (res ++ [cur]) (klineToMerged k) rest := by
  simp [mergeLoop, h]

/-- The trend is `up` as soon as the current high reaches the previous one. -/
theorem determineTrendDirection_up (c n p : MergedKLine) (l : List MergedKLine)
    (hl : l.getLast? = some p) (h : c.high ≥ p.high) :
    determineTrendDirection c n l = .up := by
  unfold determineTrendDirection
  rw [hl]
  show (if c.high ≥ p.high then Trend.up
    else if c.low ≤ p.low then Trend.down
    else if c.high > p.high then Trend.up else Trend.down) = Trend.up
  rw [if_pos h]

/-- The trend is `down` when the current high is below and the current low at
or below the previous bar's. -/
theorem determineTrendDirection_down (c n p : MergedKLine) (l : List MergedKLine)
    (hl : l.getLast? = some p) (h1 : ¬c.high ≥ p.high) (h2 : c.low ≤ p.low) :
    determineTrendDirection c n l = .down := by
  unfold determineTrendDirection
  rw [hl]
  show (if c.high ≥ p.high then Trend.up
    else if c.low ≤ p.low then Trend.down
    else if c.high > p.high then Trend.up else Trend.down) = Trend.down
  rw [if_neg h1, if_pos h2]

/-- Loop invariant for C1: if the finalized bars form a chain in which no
bar strictly contains its successor, and the last finalized bar does not
strictly contain the current bar, the final output is such a chain. -/
theorem mergeLoop_chain :
    ∀ (rest : List KLine) (res : List MergedKLine) (cur : MergedKLine),
      List.Chain' (fun a b => ¬(b.high < a.high ∧ a.low < b.low)) res →
      (∀ x ∈ res.getLast?, ¬(cur.high < x.high ∧ x.low < cur.low)) →
      List.Chain' (fun a b => ¬(b.high < a.high ∧ a.low < b.low)) (mergeLoop res cur rest) := by
  intro rest
  induction rest with
  | nil =>
    intro res cur hres hlast
    simp only [mergeLoop]
    rw [List.chain'_append]
    refine ⟨hres, List.chain'_singleton _, ?_⟩
    intro x hx y hy
    simp only [List.head?_cons, Option.mem_def, Option.some.injEq] at hy
    subst hy
    exact hlast x hx
  | cons k rest ih =>
    intro res cur hres hlast
    rcases hasInclusionRelationship_cases cur (klineToMerged k) with
      ⟨hch, hcl, heq⟩ | ⟨hnc, hch, hcl, heq⟩ | ⟨hnc1, hnc2, heq⟩
    · rw [mergeLoop_cons_merge res cur k rest heq]
      apply ih res _ hres
      intro x hx
      rw [Option.mem_def] at hx
      have hP := hlast x (by rw [Option.mem_def]; exact hx)
      by_cases hup : cur.high ≥ x.high
      · rw [determineTrendDirection_up cur (klineToMerged k) x res hx hup]
        rintro ⟨hcon, -⟩
        simp only [mergeInclusionRelationship] at hcon
        have : cur.high ≤ max cur.high (klineToMerged k).high := le_max_left _ _
        exact absurd (lt_of_le_of_lt this hcon) (not_lt.mpr hup)
      · have hlow : cur.low ≤ x.low := by
          rcases not_and_or.mp hP with hA | hB
          · exact absurd (not_le.mp hup) hA
          · exact not_lt.mp hB
        rw [determineTrendDirection_down cur (klineToMerged k) x res hx hup hlow]
        rintro ⟨-, hcon⟩
        simp only [mergeInclusionRelationship] at hcon
        have : min cur.low (klineToMerged k).low ≤ cur.low := min_le_left _ _
        exact absurd (lt_of_lt_of_le hcon (le_trans this hlow)) (lt_irrefl _)
    · rw [mergeLoop_cons_keep res cur k rest heq]
      apply ih
      · rw [List.chain'_append]
        refine ⟨hres, List.chain'_singleton _, ?_⟩
        intro x hx y hy
        simp only [List.head?_cons, Option.mem_def, Option.some.injEq] at hy
        subst hy
        exact hlast x hx
      · intro x hx
        rw [Option.mem_def, List.getLast?_concat] at hx
        injection hx with hx
        subst hx
        rintro ⟨hcon, -⟩
        exact absurd hch (not_le.mpr hcon)
    · rw [mergeLoop_cons_none res cur k rest heq]
      apply ih
      · rw [List.chain'_append]
        refine ⟨hres, List.chain'_singleton _, ?_⟩
        intro x hx y hy
        simp only [List.head?_cons, Option.mem_def, Option.some.injEq] at hy
        subst hy
        exact hlast x hx
      · intro x hx
        rw [Option.mem_def, List.getLast?_concat] at hx
        injection hx with hx
        subst hx
        rintro ⟨hcon1, hcon2⟩
        rcases not_and_or.mp hnc1 with hA | hB
        · exact absurd (not_le.mp hA) (lt_asymm hcon1)
        · exact absurd (not_le.mp hB) (lt_asymm hcon2)

/-! ## C1: inclusion elimination fails; only strict left-to-right containment
is eliminated -/

/-- C1 counterexample: on the input bars
`(10,5), (10,4), (9,5), (11,6)` the merge output contains two adjacent
identical bars `(10,5)` — each contains the other under both inclusion
predicates — and re-running the merge on the output (as raw bars with the
same highs and lows) shortens it from 3 bars to 2, so the merge is not
idempotent either. -/
theorem c1_counterexample :
    mergeKlines [⟨0, 10, 5⟩, ⟨1, 10, 4⟩, ⟨2, 9, 5⟩, ⟨3, 11, 6⟩] =
      [⟨0, 0, 10, 5, 1⟩, ⟨1, 2, 10, 5, 2⟩, ⟨3, 3, 11, 6, 1⟩]
    ∧ (hasInclusionRelationship ⟨0, 0, 10, 5, 1⟩ ⟨1, 2, 10, 5, 2⟩).1 = true
    ∧ (hasInclusionRelationship ⟨1, 2, 10, 5, 2⟩ ⟨0, 0, 10, 5, 1⟩).1 = true
    ∧ (mergeKlines ((mergeKlines [⟨0, 10, 5⟩, ⟨1, 10, 4⟩, ⟨2, 9, 5⟩, ⟨3, 11, 6⟩]).map
        (fun m => KLine.mk m.start_time m.high m.low))).length = 2
    ∧ (mergeKlines [⟨0, 10, 5⟩, ⟨1, 10, 4⟩, ⟨2, 9, 5⟩, ⟨3, 11, 6⟩]).length = 3 := by
  decide

/-- C1 amended: in the merge output, no bar ever *strictly* contains the
bar that follows it (strictly higher high and strictly lower low); weaker
inclusions — ties, or the right bar containing the left one — can survive,
so re-running the merge need not return the sequence unchanged. -/
theorem c1_amended_no_strict_containment (klines : List KLine) :
    List.Chain' (fun a b => ¬(b.high < a.high ∧ a.low < b.low)) (mergeKlines klines) := by
  cases klines with
  | nil => simp [mergeKlines]
  | cons k rest =>
    exact mergeLoop_chain rest [] (klineToMerged k) (by simp) (by simp)

/-- The merge loop conserves the total absorbed count: every input bar adds
exactly 1 to the sum of `original_count` over the final output. -/
theorem mergeLoop_count :
    ∀ (rest : List KLine) (res : List MergedKLine) (cur : MergedKLine),
      ((mergeLoop res cur rest).map (fun b => b.original_count)).sum
        = (res.map (fun b => b.original_count)).sum + cur.original_count + rest.length := by
  intro rest
  induction rest with
  | nil =>
    intro res cur
    simp [mergeLoop]
  | cons k rest ih =>
    intro res cur
    rcases hasInclusionRelationship_cases cur (klineToMerged k) with
      ⟨-, -, heq⟩ | ⟨-, -, -, heq⟩ | ⟨-, -, heq⟩
    · rw [mergeLoop_cons_merge res cur k rest heq, ih]
      have hcnt : ∀ t, (mergeInclusionRelationship cur (klineToMerged k) t).original_count
          = cur.original_count + 1 := by
        intro t
        cases t <;> rfl
      rw [hcnt]
      simp only [List.length_cons]
      omega
    · rw [mergeLoop_cons_keep res cur k rest heq, ih]
      simp only [List.map_append, List.sum_append, List.map_cons, List.map_nil,
        List.sum_cons, List.sum_nil, List.length_cons, klineToMerged]
      omega
    · rw [mergeLoop_cons_none res cur k rest heq, ih]
      simp only [List.map_append, List.sum_append, List.map_cons, List.map_nil,
        List.sum_cons, List.sum_nil, List.length_cons, klineToMerged]
      omega

/-- Loop invariant for C3: with well-formed finalized bars, a well-formed
current bar ending no later than any remaining timestamp, valid remaining
bars and non-decreasing remaining timestamps, every output bar is
well-formed. -/
theorem mergeLoop_good :
    ∀ (rest : List KLine) (res : List MergedKLine) (cur : MergedKLine),
      (∀ b ∈ res, b.low ≤ b.high ∧ b.start_time ≤ b.end_time ∧ 1 ≤ b.original_count) →
      cur.low ≤ cur.high ∧ cur.start_time ≤ cur.end_time ∧ 1 ≤ cur.original_count →
      (∀ k ∈ rest, k.low ≤ k.high) →
      (∀ k ∈ rest, cur.end_time ≤ k.timestamp) →
      rest.Pairwise (fun a b => a.timestamp ≤ b.timestamp) →
      ∀ b ∈ mergeLoop res cur rest,
        b.low ≤ b.high ∧ b.start_time ≤ b.end_time ∧ 1 ≤ b.original_count := by
  intro rest
  induction rest with
  | nil =>
    intro res cur hres hcur _ _ _ b hb
    simp only [mergeLoop, List.mem_append, List.mem_singleton] at hb
    rcases hb with hb | hb
    · exact hres b hb
    · subst hb
      exact hcur
  | cons k rest ih =>
    intro res cur hres hcur hv hts hpw
    have hvk : k.low ≤ k.high := hv k (List.mem_cons_self k rest)
    have hvrest : ∀ k' ∈ rest, k'.low ≤ k'.high := fun k' hk' => hv k' (List.mem_cons_of_mem k hk')
    have hpw' := List.pairwise_cons.mp hpw
    rcases hasInclusionRelationship_cases cur (klineToMerged k) with
      ⟨-, -, heq⟩ | ⟨-, -, -, heq⟩ | ⟨-, -, heq⟩
    · rw [mergeLoop_cons_merge res cur k rest heq]
      apply ih res _ hres
      · constructor
        · cases hdt : determineTrendDirection cur (klineToMerged k) res
          · simp only [mergeInclusionRelationship]
            exact max_le_max hcur.1 hvk
          · simp only [mergeInclusionRelationship]
            exact min_le_min hcur.1 hvk
        · constructor
          · cases determineTrendDirection cur (klineToMerged k) res
            · simp only [mergeInclusionRelationship, klineToMerged]
              exact le_trans hcur.2.1 (hts k (List.mem_cons_self k rest))
            · simp only [mergeInclusionRelationship, klineToMerged]
              exact le_trans hcur.2.1 (hts k (List.mem_cons_self k rest))
          · cases determineTrendDirection cur (klineToMerged k) res
            · simp only [mergeInclusionRelationship]
              omega
            · simp only [mergeInclusionRelationship]
              omega
      · exact hvrest
      · intro k' hk'
        cases determineTrendDirection cur (klineToMerged k) res
        · simp only [mergeInclusionRelationship, klineToMerged]
          exact hpw'.1 k' hk'
        · simp only [mergeInclusionRelationship, klineToMerged]
          exact hpw'.1 k' hk'
      · exact hpw'.2
    · rw [mergeLoop_cons_keep res cur k rest heq]
      apply ih
      · intro b hb
        rcases List.mem_append.mp hb with hb | hb
        · exact hres b hb
        · rw [List.mem_singleton] at hb
          subst hb
          exact hcur
      · exact ⟨hvk, le_rfl, le_rfl⟩
      · exact hvrest
      · intro k' hk'
        exact hpw'.1 k' hk'
      · exact hpw'.2
    · rw [mergeLoop_cons_none res cur k rest heq]
      apply ih
      · intro b hb
        rcases List.mem_append.mp hb with hb | hb
        · exact hres b hb
        · rw [List.mem_singleton] at hb
          subst hb
          exact hcur
      · exact ⟨hvk, le_rfl, le_rfl⟩
      · exact hvrest
      · intro k' hk'
        exact hpw'.1 k' hk'
      · exact hpw'.2

/-! ## C3: merge output invariants and count conservation -/

/-- C3: for valid bars (`high ≥ low`) with non-decreasing timestamps, every
compressed bar satisfies `high ≥ low`, `end_time ≥ start_time` and
`count ≥ 1`, and the counts sum to the number of input bars. -/
theorem c3_merge_invariants (klines : List KLine)
    (hvalid : ∀ k ∈ klines, k.low ≤ k.high)
    (htimes : klines.Pairwise (fun a b => a.timestamp ≤ b.timestamp)) :
    (∀ b ∈ mergeKlines klines,
        b.low ≤ b.high ∧ b.start_time ≤ b.end_time ∧ 1 ≤ b.original_count)
    ∧ ((mergeKlines klines).map (fun b => b.original_count)).sum = klines.length := by
  cases klines with
  | nil => exact ⟨by simp [mergeKlines], by simp [mergeKlines]⟩
  | cons k rest =>
    have hpw := List.pairwise_cons.mp htimes
    constructor
    · apply mergeLoop_good rest [] (klineToMerged k)
      · intro b hb
        exact absurd hb (List.not_mem_nil b)
      · exact ⟨hvalid k (List.mem_cons_self k rest), le_rfl, le_rfl⟩
      · intro k' hk'
        exact hvalid k' (List.mem_cons_of_mem k hk')
      · intro k' hk'
        exact hpw.1 k' hk'
      · exact hpw.2
    · show ((mergeLoop [] (klineToMerged k) rest).map (fun b => b.original_count)).sum = _
      rw [mergeLoop_count]
      simp [klineToMerged]
      omega

/-- Witness for C3 at a concrete valid input. -/
theorem c3_merge_invariants_witness :
    (∀ b ∈ mergeKlines [⟨0, 10, 5⟩, ⟨1, 10, 4⟩, ⟨2, 9, 5⟩, ⟨3, 11, 6⟩],
        b.low ≤ b.high ∧ b.start_time ≤ b.end_time ∧ 1 ≤ b.original_count)
    ∧ ((mergeKlines [⟨0, 10, 5⟩, ⟨1, 10, 4⟩, ⟨2, 9, 5⟩, ⟨3, 11, 6⟩]).map
        (fun b => b.original_count)).sum = 4 :=
  c3_merge_invariants [⟨0, 10, 5⟩, ⟨1, 10, 4⟩, ⟨2, 9, 5⟩, ⟨3, 11, 6⟩]
    (by decide) (by decide)

/-! ## Valid-end search characterization -/

/-- Once a valid candidate is recorded, the scan returns the last valid
candidate occurring before the first start-kind fractal (the accumulator if
none follows). -/
theorem findEndScan_acc_eq (s : Fractal) (t : FractalType) (hts : t ≠ s.type) :
    ∀ (l : List Fractal) (j q : ℕ) (a : Fractal),
      (findEndScan s t l j (some (q, a))).map Prod.snd =
        some (((l.takeWhile fun x => decide (x.type ≠ s.type)).filter
          (isValidEnd s t)).getLastD a) := by
  intro l
  induction l with
  | nil => intro j q a; rfl
  | cons c rest ih =>
    intro j q a
    by_cases hct : c.type = t
    · have hcs : decide (c.type ≠ s.type) = true := by
        simp only [decide_eq_true_eq]
        rw [hct]
        exact hts
      by_cases hind : hasIndependentKlinesBetween s c = true
      · have hval : isValidEnd s t c = true := by simp [isValidEnd, hct, hind]
        rw [findEndScan, if_pos hct, if_pos hind, ih]
        conv_rhs => rw [List.takeWhile_cons, if_pos hcs, List.filter_cons_of_pos hval]
        rw [List.getLastD_cons]
      · have hval : isValidEnd s t c = false := by simp [isValidEnd, hct, hind]
        rw [findEndScan, if_pos hct, if_neg hind, ih]
        conv_rhs => rw [List.takeWhile_cons, if_pos hcs,
          List.filter_cons_of_neg (by rw [hval]; exact Bool.false_ne_true)]
    · have hcs : c.type = s.type := by
        rcases fractalType_eq_or t s.type c.type hts with h | h
        · exact absurd h hct
        · exact h
      have hcs' : decide (c.type ≠ s.type) = false := by
        simp only [decide_eq_false_iff_not, not_not]
        exact hcs
      rw [findEndScan, if_neg hct, if_pos hcs, if_pos (by rfl : (some (q, a)).isSome = true)]
      conv_rhs => rw [List.takeWhile_cons, if_neg (by rw [hcs']; exact Bool.false_ne_true)]
      rfl

/-- Full characterization of the scan started with no recorded candidate:
skip everything up to the first valid candidate; from there, return the
last valid candidate occurring before the first start-kind fractal. -/
theorem findEndScan_none_eq (s : Fractal) (t : FractalType) (hts : t ≠ s.type) :
    ∀ (l : List Fractal) (j : ℕ),
      (findEndScan s t l j none).map Prod.snd =
        (match l.dropWhile (fun c => !isValidEnd s t c) with
         | [] => none
         | c :: l2 => some (((l2.takeWhile fun x => decide (x.type ≠ s.type)).filter
             (isValidEnd s t)).getLastD c)) := by
  intro l
  induction l with
  | nil => intro j; rfl
  | cons c rest ih =>
    intro j
    by_cases hv : isValidEnd s t c = true
    · have hct : c.type = t := by
        have := (Bool.and_eq_true _ _).mp hv
        simpa using this.1
      have hind : hasIndependentKlinesBetween s c = true := by
        have := (Bool.and_eq_true _ _).mp hv
        exact this.2
      rw [findEndScan, if_pos hct, if_pos hind, findEndScan_acc_eq s t hts rest (j + 1) j c]
      conv_rhs => rw [List.dropWhile_cons, if_neg (by rw [hv]; simp)]
    · have hv' : (!isValidEnd s t c) = true := by simp [hv]
      by_cases hct : c.type = t
      · have hind : ¬hasIndependentKlinesBetween s c = true := by
          intro hcon
          exact hv (by simp [isValidEnd, hct, hcon])
        rw [findEndScan, if_pos hct, if_neg hind, ih]
        conv_rhs => rw [List.dropWhile_cons, if_pos hv']
      · have hcs : c.type = s.type := by
          rcases fractalType_eq_or t s.type c.type hts with h | h
          · exact absurd h hct
          · exact h
        rw [findEndScan, if_neg hct, if_pos hcs,
          if_neg (by simp : ¬(none : Option (ℕ × Fractal)).isSome = true), ih]
        conv_rhs => rw [List.dropWhile_cons, if_pos hv']

/-! ## C5: the valid-end search -/

/-- C5: `_find_valid_pen_end` skips every fractal up to the first
independence-qualifying candidate of the target kind (in particular it
skips start-kind fractals seen before any valid candidate), then returns
the *last* valid candidate occurring before the first start-kind fractal
that follows it (a later valid candidate supersedes an earlier one, and a
start-kind fractal after a recorded candidate stops the scan); it returns
none exactly when no candidate of the target kind is independent of the
start. -/
theorem c5_find_valid_pen_end (start_fractal : Fractal) (fractals : List Fractal)
    (start_index : ℕ) (target_type : FractalType)
    (hts : target_type ≠ start_fractal.type) :
    ((findValidPenEnd start_fractal fractals start_index target_type).map Prod.snd =
      (match (fractals.drop (start_index + 1)).dropWhile
          (fun c => !isValidEnd start_fractal target_type c) with
       | [] => none
       | c :: l2 =>
         some (((l2.takeWhile fun x => decide (x.type ≠ start_fractal.type)).filter
             (isValidEnd start_fractal target_type)).getLastD c)))
    ∧ (findValidPenEnd start_fractal fractals start_index target_type = none ↔
        ∀ c ∈ fractals.drop (start_index + 1),
          ¬(c.type = target_type ∧
            hasIndependentKlinesBetween start_fractal c = true)) := by
  have heq := findEndScan_none_eq start_fractal target_type hts
    (fractals.drop (start_index + 1)) (start_index + 1)
  refine ⟨heq, ?_, ?_⟩
  · intro hnone c hc
    rw [findValidPenEnd] at hnone
    rw [hnone] at heq
    rcases hdw : (fractals.drop (start_index + 1)).dropWhile
        (fun c => !isValidEnd start_fractal target_type c) with _ | ⟨d, l2⟩
    · have hall := List.dropWhile_eq_nil_iff.mp hdw
      have := hall c hc
      rintro ⟨h1, h2⟩
      rw [Bool.not_eq_true', isValidEnd] at this
      simp [h1, h2] at this
    · rw [hdw] at heq
      exact absurd heq.symm (by simp)
  · intro hall
    have hdw : (fractals.drop (start_index + 1)).dropWhile
        (fun c => !isValidEnd start_fractal target_type c) = [] := by
      rw [List.dropWhile_eq_nil_iff]
      intro x hx
      have hnx := hall x hx
      rw [Bool.not_eq_true', isValidEnd]
      cases hb : hasIndependentKlinesBetween start_fractal x
      · simp
      · have hxt : ¬x.type = target_type := fun h1 => hnx ⟨h1, hb⟩
        simp [hxt]
    rw [hdw] at heq
    rw [findValidPenEnd]
    exact Option.map_eq_none'.mp heq

/-- Witness for C5 at a concrete fractal list. -/
theorem c5_find_valid_pen_end_witness :
    (findValidPenEnd ⟨1, .bottom, 1, 0⟩ [⟨1, .bottom, 1, 0⟩, ⟨5, .top, 5, 1⟩] 0 .top).map
      Prod.snd = some ⟨5, .top, 5, 1⟩ :=
  ((c5_find_valid_pen_end ⟨1, .bottom, 1, 0⟩ [⟨1, .bottom, 1, 0⟩, ⟨5, .top, 5, 1⟩] 0 .top
    (by decide)).1).trans (by decide)

/-! ## Pen-loop lemmas -/

/-- Any result of the `find_valid_pen_end` scan loop either is the incoming
accumulator or lies in the scanned suffix, has the target kind and is
independent of the start fractal. -/
theorem findEndScan_some_spec (s : Fractal) (t : FractalType) :
    ∀ (l : List Fractal) (j : ℕ) (acc : Option (ℕ × Fractal)) (p : ℕ) (f : Fractal),
      findEndScan s t l j acc = some (p, f) →
      acc = some (p, f) ∨
        (j ≤ p ∧ p - j < l.length ∧ l[p - j]? = some f ∧ f.type = t ∧
          hasIndependentKlinesBetween s f = true) := by
  intro l
  induction l with
  | nil =>
    intro j acc p f h
    exact Or.inl h
  | cons c rest ih =>
    intro j acc p f h
    have shift : ∀ q, j + 1 ≤ q → q - (j + 1) < rest.length → rest[q - (j + 1)]? = some f →
        j ≤ q ∧ q - j < (c :: rest).length ∧ (c :: rest)[q - j]? = some f := by
      intro q h1 h2 h3
      have hq : q - j = (q - (j + 1)) + 1 := by omega
      refine ⟨by omega, by simp; omega, ?_⟩
      rw [hq, List.getElem?_cons_succ]
      exact h3
    by_cases hct : c.type = t
    · by_cases hind : hasIndependentKlinesBetween s c = true
      · rw [findEndScan, if_pos hct, if_pos hind] at h
        rcases ih (j + 1) (some (j, c)) p f h with h' | ⟨h1, h2, h3, h4, h5⟩
        · injection h' with h'
          obtain ⟨rfl, rfl⟩ : j = p ∧ c = f := by
            constructor
            · exact congrArg Prod.fst h'
            · exact congrArg Prod.snd h'
          exact Or.inr ⟨le_rfl, by simp, by simp, hct, hind⟩
        · exact Or.inr ⟨(shift p h1 h2 h3).1, (shift p h1 h2 h3).2.1,
            (shift p h1 h2 h3).2.2, h4, h5⟩
      · rw [findEndScan, if_pos hct, if_neg hind] at h
        rcases ih (j + 1) acc p f h with h' | ⟨h1, h2, h3, h4, h5⟩
        · exact Or.inl h'
        · exact Or.inr ⟨(shift p h1 h2 h3).1, (shift p h1 h2 h3).2.1,
            (shift p h1 h2 h3).2.2, h4, h5⟩
    · by_cases hcs : c.type = s.type
      · rw [findEndScan, if_neg hct, if_pos hcs] at h
        by_cases hacc : acc.isSome
        · rw [if_pos hacc] at h
          exact Or.inl h
        · rw [if_neg hacc] at h
          rcases ih (j + 1) acc p f h with h' | ⟨h1, h2, h3, h4, h5⟩
          · exact Or.inl h'
          · exact Or.inr ⟨(shift p h1 h2 h3).1, (shift p h1 h2 h3).2.1,
              (shift p h1 h2 h3).2.2, h4, h5⟩
      · rw [findEndScan, if_neg hct, if_neg hcs] at h
        rcases ih (j + 1) acc p f h with h' | ⟨h1, h2, h3, h4, h5⟩
        · exact Or.inl h'
        · exact Or.inr ⟨(shift p h1 h2 h3).1, (shift p h1 h2 h3).2.1,
            (shift p h1 h2 h3).2.2, h4, h5⟩

/-- A successful `find_valid_pen_end` returns a fractal strictly after the
start position, inside the list, of the target kind and independent of the
start fractal. -/
theorem findValidPenEnd_some (s : Fractal) (fractals : List Fractal) (si : ℕ)
    (t : FractalType) (p : ℕ) (f : Fractal)
    (h : findValidPenEnd s fractals si t = some (p, f)) :
    si < p ∧ p < fractals.length ∧ fractals[p]? = some f ∧ f.type = t ∧
      hasIndependentKlinesBetween s f = true := by
  rcases findEndScan_some_spec s t (fractals.drop (si + 1)) (si + 1) none p f h with
    h' | ⟨h1, h2, h3, h4, h5⟩
  · exact absurd h' (by simp)
  · rw [List.length_drop] at h2
    rw [List.getElem?_drop] at h3
    have hp : si + 1 + (p - (si + 1)) = p := by omega
    rw [hp] at h3
    exact ⟨by omega, by omega, h3, h4, h5⟩

/-- A successful restart search yields an in-range position. -/
theorem restartScan_some_spec (ct : FractalType) (used : List ℕ) :
    ∀ (l : List Fractal) (j p : ℕ), restartScan ct used l j = some p →
      j ≤ p ∧ p - j < l.length := by
  intro l
  induction l with
  | nil =>
    intro j p h
    exact absurd h (by simp [restartScan])
  | cons f rest ih =>
    intro j p h
    rw [restartScan] at h
    split at h
    · injection h with h
      subst h
      simp only [List.length_cons]
      omega
    · have := ih (j + 1) p h
      refine ⟨by omega, ?_⟩
      simp only [List.length_cons]
      omega

/-- One-step unfolding of the pen chain loop at positive fuel. -/
theorem penLoop_succ (fractals : List Fractal) (fuel current_index : ℕ)
    (used_fractals : List ℕ) (pens : List Pen) :
    penLoop fractals (fuel + 1) current_index used_fractals pens =
      match fractals[current_index]? with
      | none => pens
      | some current_fractal =>
        match findValidPenEnd current_fractal fractals current_index
            (oppositeType current_fractal.type) with
        | some (j, end_fractal) =>
          penLoop fractals fuel j (current_index :: j :: used_fractals)
            (pens ++ [mkPen current_fractal end_fractal])
        | none =>
          match restartScan current_fractal.type used_fractals
              (fractals.drop (current_index + 1)) (current_index + 1) with
          | some p => penLoop fractals fuel p used_fractals pens
          | none => pens := rfl

/-- One-step unfolding of the first-start search at positive fuel. -/
theorem firstStart_succ (fractals : List Fractal) (fuel start_index : ℕ) :
    firstStart fractals (fuel + 1) start_index =
      match fractals[start_index]? with
      | none => none
      | some candidate_start =>
        if (findValidPenEnd candidate_start fractals start_index
            (oppositeType candidate_start.type)).isSome then some start_index
        else firstStart fractals fuel (start_index + 1) := rfl

/-- The pen chain loop is insensitive to the fuel as soon as the fuel
exceeds the number of positions at or after the cursor. -/
theorem penLoop_fuel_irrelevant (fractals : List Fractal) :
    ∀ (fuel1 fuel2 ci : ℕ) (used : List ℕ) (pens : List Pen),
      fractals.length < fuel1 + ci → fractals.length < fuel2 + ci →
      penLoop fractals fuel1 ci used pens = penLoop fractals fuel2 ci used pens := by
  intro fuel1
  induction fuel1 with
  | zero =>
    intro fuel2 ci used pens h1 h2
    have hC : fractals[ci]? = none := List.getElem?_eq_none (by omega)
    cases fuel2 with
    | zero => rfl
    | succ f2 =>
      rw [penLoop_succ]
      simp only [hC]
      rfl
  | succ f1 ih =>
    intro fuel2 ci used pens h1 h2
    cases fuel2 with
    | zero =>
      have hC : fractals[ci]? = none := List.getElem?_eq_none (by omega)
      rw [penLoop_succ]
      simp only [hC]
      rfl
    | succ f2 =>
      rw [penLoop_succ, penLoop_succ]
      rcases hC : fractals[ci]? with _ | cur
      · simp only [hC]
      · simp only [hC]
        rcases hF : findValidPenEnd cur fractals ci (oppositeType cur.type) with _ | ⟨j, f⟩
        · simp only [hF]
          rcases hR : restartScan cur.type used (fractals.drop (ci + 1)) (ci + 1) with _ | p
          · simp only [hR]
          · simp only [hR]
            obtain ⟨hp1, hp2⟩ := restartScan_some_spec cur.type used _ _ _ hR
            rw [List.length_drop] at hp2
            exact ih f2 p used pens (by omega) (by omega)
        · simp only [hF]
          obtain ⟨hlt, hlen, -, -, -⟩ := findValidPenEnd_some cur fractals ci _ j f hF
          exact ih f2 j (ci :: j :: used) (pens ++ [mkPen cur f]) (by omega) (by omega)

/-- The first-start search is insensitive to the fuel as soon as the fuel
exceeds the number of positions at or after the cursor. -/
theorem firstStart_fuel_irrelevant (fractals : List Fractal) :
    ∀ (fuel1 fuel2 s : ℕ),
      fractals.length < fuel1 + s → fractals.length < fuel2 + s →
      firstStart fractals fuel1 s = firstStart fractals fuel2 s := by
  intro fuel1
  induction fuel1 with
  | zero =>
    intro fuel2 s h1 h2
    have hC : fractals[s]? = none := List.getElem?_eq_none (by omega)
    cases fuel2 with
    | zero => rfl
    | succ f2 =>
      rw [firstStart_succ]
      simp only [hC]
      rfl
  | succ f1 ih =>
    intro fuel2 s h1 h2
    cases fuel2 with
    | zero =>
      have hC : fractals[s]? = none := List.getElem?_eq_none (by omega)
      rw [firstStart_succ]
      simp only [hC]
      rfl
    | succ f2 =>
      rw [firstStart_succ, firstStart_succ]
      rcases hC : fractals[s]? with _ | cand
      · simp only [hC]
      · simp only [hC]
        by_cases hf : (findValidPenEnd cand fractals s (oppositeType cand.type)).isSome
        · rw [if_pos hf, if_pos hf]
        · rw [if_neg hf, if_neg hf]
          exact ih f2 (s + 1) (by omega) (by omega)

/-- Positions determine fractal indices monotonically when the fractal list
has strictly increasing indices. -/
theorem pairwise_index_lt (fractals : List Fractal)
    (hmono : fractals.Pairwise (fun a b => a.index < b.index))
    (i j : ℕ) (a b : Fractal) (hij : i < j)
    (ha : fractals[i]? = some a) (hb : fractals[j]? = some b) : a.index < b.index := by
  rw [List.getElem?_eq_some_iff] at ha hb
  obtain ⟨hi, ha⟩ := ha
  obtain ⟨hj, hb⟩ := hb
  subst ha hb
  exact List.pairwise_iff_getElem.mp hmono i j hi hj hij

/-- Every pen appended by the chain loop links opposite kinds with the
direction-from-price rule and joins fractals more than 2 indices apart. -/
theorem penLoop_good (fractals : List Fractal) :
    ∀ (fuel ci : ℕ) (used : List ℕ) (pens : List Pen),
      (∀ pen ∈ pens,
        pen.start_fractal.type ≠ pen.end_fractal.type
        ∧ (pen.direction = .up ↔ pen.start_fractal.price < pen.end_fractal.price)
        ∧ 2 < max pen.start_fractal.index pen.end_fractal.index
              - min pen.start_fractal.index pen.end_fractal.index) →
      ∀ pen ∈ penLoop fractals fuel ci used pens,
        pen.start_fractal.type ≠ pen.end_fractal.type
        ∧ (pen.direction = .up ↔ pen.start_fractal.price < pen.end_fractal.price)
        ∧ 2 < max pen.start_fractal.index pen.end_fractal.index
              - min pen.start_fractal.index pen.end_fractal.index := by
  intro fuel
  induction fuel with
  | zero =>
    intro ci used pens hp
    exact hp
  | succ fuel ih =>
    intro ci used pens hp
    rw [penLoop_succ]
    rcases hC : fractals[ci]? with _ | cur
    · simp only []
      exact hp
    · simp only []
      rcases hF : findValidPenEnd cur fractals ci (oppositeType cur.type) with _ | ⟨j, f⟩
      · simp only []
        rcases hR : restartScan cur.type used (fractals.drop (ci + 1)) (ci + 1) with _ | p
        · exact hp
        · exact ih p used pens hp
      · simp only []
        apply ih j (ci :: j :: used) (pens ++ [mkPen cur f])
        intro pen hpen
        rcases List.mem_append.mp hpen with h | h
        · exact hp pen h
        · rw [List.mem_singleton] at h
          subst h
          obtain ⟨hlt, hlen, hget, htype, hindep⟩ :=
            findValidPenEnd_some cur fractals ci _ j f hF
          refine ⟨?_, ?_, ?_⟩
          · show cur.type ≠ f.type
            intro hcon
            rw [htype] at hcon
            exact oppositeType_ne cur.type hcon.symm
          · show (mkPen cur f).direction = .up ↔ cur.price < f.price
            unfold mkPen
            by_cases hpr : f.price > cur.price
            · rw [if_pos hpr]
              exact iff_of_true rfl hpr
            · rw [if_neg hpr]
              exact iff_of_false (by simp) hpr
          · show 2 < max cur.index f.index - min cur.index f.index
            exact ((hasIndependentKlinesBetween_iff cur f).mp hindep).1

/-- With strictly increasing fractal indices, the chain loop emits pens
whose start indices never decrease. -/
theorem penLoop_starts_mono (fractals : List Fractal)
    (hmono : fractals.Pairwise (fun a b => a.index < b.index)) :
    ∀ (fuel ci : ℕ) (used : List ℕ) (pens : List Pen),
      ((pens.map fun p => p.start_fractal.index).Pairwise (· ≤ ·)) →
      (∀ pen ∈ pens, ∀ cur, fractals[ci]? = some cur →
        pen.start_fractal.index ≤ cur.index) →
      ((penLoop fractals fuel ci used pens).map fun p => p.start_fractal.index).Pairwise
        (· ≤ ·) := by
  intro fuel
  induction fuel with
  | zero =>
    intro ci used pens hp1 hp2
    exact hp1
  | succ fuel ih =>
    intro ci used pens hp1 hp2
    rw [penLoop_succ]
    rcases hC : fractals[ci]? with _ | cur
    · simp only []
      exact hp1
    · simp only []
      rcases hF : findValidPenEnd cur fractals ci (oppositeType cur.type) with _ | ⟨j, f⟩
      · simp only []
        rcases hR : restartScan cur.type used (fractals.drop (ci + 1)) (ci + 1) with _ | p
        · exact hp1
        · obtain ⟨hp1', hp2'⟩ := restartScan_some_spec cur.type used _ _ _ hR
          rw [List.length_drop] at hp2'
          apply ih p used pens hp1
          intro pen hpen cur2 hcur2
          have h1 := hp2 pen hpen cur hC
          have h2 := pairwise_index_lt fractals hmono ci p cur cur2 (by omega) hC hcur2
          omega
      · simp only []
        obtain ⟨hlt, hlen, hget, htype, hindep⟩ :=
          findValidPenEnd_some cur fractals ci _ j f hF
        apply ih j (ci :: j :: used) (pens ++ [mkPen cur f])
        · rw [List.map_append, List.pairwise_append]
          refine ⟨hp1, by simp, ?_⟩
          intro x hx y hy
          simp only [List.map_cons, List.map_nil, List.mem_singleton] at hy
          subst hy
          obtain ⟨pen, hpen, hx⟩ := List.mem_map.mp hx
          subst hx
          exact hp2 pen hpen cur hC
        · intro pen hpen cur2 hcur2
          have hfc : f = cur2 := by
            rw [hget] at hcur2
            injection hcur2
          subst hfc
          rcases List.mem_append.mp hpen with h | h
          · have h1 := hp2 pen h cur hC
            have h2 := pairwise_index_lt fractals hmono ci j cur f hlt hC hget
            omega
          · rw [List.mem_singleton] at h
            subst h
            show cur.index ≤ f.index
            have h2 := pairwise_index_lt fractals hmono ci j cur f hlt hC hget
            omega

/-! ## C4: pen builder guarantees -/

/-- C4 counterexample: on a fractal list whose `index` fields are not
monotone along the list (positions 0,1,2 carrying indices 8,4,0), the pen
builder emits pens with start indices `[8, 4]` — a strictly decreasing
sequence — so "start indices are non-decreasing" fails for arbitrary
fractal sequences. -/
theorem c4_counterexample :
    ((calculatePens [⟨8, .bottom, 1, 0⟩, ⟨4, .top, 5, 1⟩, ⟨0, .bottom, 0, 2⟩]).map
      fun p => p.start_fractal.index) = [8, 4]
    ∧ ¬((calculatePens [⟨8, .bottom, 1, 0⟩, ⟨4, .top, 5, 1⟩, ⟨0, .bottom, 0, 2⟩]).map
      fun p => p.start_fractal.index).Pairwise (· ≤ ·) := by
  decide

/-- C4 amended: every pen emitted by the pen builder has opposite start and
end kinds, direction `up` exactly when the end price strictly exceeds the
start price, and never connects fractals whose indices differ by 2 or less;
and *when the input fractal indices are strictly increasing along the list*
(as the fractal detector guarantees), the start indices of the returned
pens are non-decreasing. -/
theorem c4_pen_guarantees (fractals : List Fractal) :
    (∀ pen ∈ calculatePens fractals,
      pen.start_fractal.type ≠ pen.end_fractal.type
      ∧ (pen.direction = .up ↔ pen.start_fractal.price < pen.end_fractal.price)
      ∧ 2 < max pen.start_fractal.index pen.end_fractal.index
            - min pen.start_fractal.index pen.end_fractal.index)
    ∧ (fractals.Pairwise (fun a b => a.index < b.index) →
      ((calculatePens fractals).map fun p => p.start_fractal.index).Pairwise (· ≤ ·)) := by
  constructor
  · intro pen hpen
    unfold calculatePens at hpen
    by_cases hlen : fractals.length < 2
    · rw [if_pos hlen] at hpen
      exact absurd hpen (List.not_mem_nil pen)
    · rw [if_neg hlen] at hpen
      rcases hFS : firstStart fractals (fractals.length + 1) 0 with _ | s
      · rw [hFS] at hpen
        exact absurd hpen (List.not_mem_nil pen)
      · rw [hFS] at hpen
        exact penLoop_good fractals (fractals.length + 1) s [] []
          (fun pen h => absurd h (List.not_mem_nil pen)) pen hpen
  · intro hmono
    unfold calculatePens
    by_cases hlen : fractals.length < 2
    · rw [if_pos hlen]
      simp
    · rw [if_neg hlen]
      rcases hFS : firstStart fractals (fractals.length + 1) 0 with _ | s
      · simp
      · exact penLoop_starts_mono fractals hmono (fractals.length + 1) s [] []
          (by simp) (fun pen h => absurd h (List.not_mem_nil pen))

/-- Witness for the amended C4 at a concrete monotone fractal list that
produces one pen. -/
theorem c4_pen_guarantees_witness :
    ((calculatePens [⟨1, .bottom, 1, 0⟩, ⟨5, .top, 5, 1⟩]).map
      fun p => p.start_fractal.index).Pairwise (· ≤ ·) :=
  (c4_pen_guarantees [⟨1, .bottom, 1, 0⟩, ⟨5, .top, 5, 1⟩]).2 (by decide)
